import Mathlib

/-!
Verification development for the calendar-building module of the
samo-activities repository (`app/calendar.py`).

The module converts activity data and meeting-date patterns into the data
structures consumed by the calendar template.  We embed, faithfully to the
source:

* a proleptic-Gregorian `Date` type mirroring Python's `datetime.date`
  (ordinal arithmetic, `weekday`, ISO parsing and formatting),
* `parse_iso`, `parse_weekdays`, `expand_pattern_dates`,
  `activity_meeting_dates`, `build_calendar_data`, `build_query_string`,

and prove the specification's testable properties about them.
-/

namespace SamoActivities

/-- Gregorian leap-year test, as used by Python's `datetime`/`calendar`. -/
def isLeapYear (y : Nat) : Bool :=
  (y % 4 == 0 && y % 100 != 0) || y % 400 == 0

/-- Number of days in month `m` (1..12) of year `y`. -/
def daysInMonth (y m : Nat) : Nat :=
  if m = 2 then (if isLeapYear y then 29 else 28)
  else if m = 4 ∨ m = 6 ∨ m = 9 ∨ m = 11 then 30
  else 31

/-- Days of year `y` that precede the first day of month `m`. -/
def daysBeforeMonth (y : Nat) : Nat → Nat
  | 0 => 0
  | 1 => 0
  | m + 1 => daysBeforeMonth y m + daysInMonth y (m)

/-- Days in the proleptic Gregorian calendar that precede January 1 of
year `y` (so `daysBeforeYear 1 = 0`), as in `datetime`'s ordinal scheme. -/
def daysBeforeYear (y : Nat) : Nat :=
  365 * (y - 1) + (y - 1) / 4 - (y - 1) / 100 + (y - 1) / 400

/-- A calendar date, mirroring Python's `datetime.date` triple. -/
structure Date where
  year : Nat
  month : Nat
  day : Nat
deriving DecidableEq, Repr

/-- Python's `date.toordinal`: day 1 is 0001-01-01. -/
def Date.toOrdinal (d : Date) : Nat :=
  daysBeforeYear d.year + daysBeforeMonth d.year d.month + d.day

/-- Python's `date.weekday`: Monday = 0 .. Sunday = 6
(0001-01-01 is a Monday). -/
def Date.weekday (d : Date) : Nat := (d.toOrdinal + 6) % 7

/-- The in-range invariant maintained by Python's `datetime.date`
constructor (year upper bound aside, which parsing enforces separately). -/
def Date.Valid (d : Date) : Prop :=
  1 ≤ d.year ∧ 1 ≤ d.month ∧ d.month ≤ 12 ∧ 1 ≤ d.day ∧
    d.day ≤ daysInMonth d.year d.month

instance (d : Date) : Decidable d.Valid := by
  unfold Date.Valid; infer_instance

/-- The successor date: Python's `current + timedelta(days=1)`. -/
def Date.next (d : Date) : Date :=
  if d.day < daysInMonth d.year d.month then ⟨d.year, d.month, d.day + 1⟩
  else if d.month < 12 then ⟨d.year, d.month + 1, 1⟩
  else ⟨d.year + 1, 1, 1⟩

/-- Left-pad the decimal representation of `n` with zeros to `width`. -/
def padZeros (width n : Nat) : String :=
  let s := toString n
  String.mk (List.replicate (width - s.length) '0') ++ s

/-- Python's `date.isoformat`: `YYYY-MM-DD`, zero padded. -/
def Date.isoformat (d : Date) : String :=
  padZeros 4 d.year ++ "-" ++ padZeros 2 d.month ++ "-" ++ padZeros 2 d.day

/-- The list of `n` consecutive dates starting at `d`: the unrolling of the
source's `while current <= end: ...; current += delta` loop. -/
def dateList : Nat → Date → List Date
  | 0, _ => []
  | n + 1, ⟨y, m, day⟩ => ⟨y, m, day⟩ :: dateList n (Date.next ⟨y, m, day⟩)

/-- All dates from `start` to `stop` inclusive (empty when `start > stop`),
as visited by the expansion loop in `expand_pattern_dates`. -/
def dateRange (start stop : Date) : List Date :=
  dateList (stop.toOrdinal + 1 - start.toOrdinal) start

/-- Numeric value of a decimal digit character. -/
def digitVal (c : Char) : Nat := c.toNat - 48

/-- Numeric value of a string of decimal digits (Python's `int` on such
strings). -/
def natOfDigits (s : String) : Nat :=
  s.toList.foldl (fun n c => 10 * n + digitVal c) 0

/-- Python's `datetime.date.fromisoformat` on the `YYYY-MM-DD` form (the
only form the repository feeds it): ten characters, digits in the year,
month and day positions, dashes between, and the resulting numbers within
`datetime.date`'s range checks.  Everything else raises `ValueError` in
Python, modelled as `none`. -/
def fromisoformat (s : String) : Option Date :=
  match s.toList with
  | [y1, y2, y3, y4, s1, m1, m2, s2, d1, d2] =>
    if y1.isDigit && y2.isDigit && y3.isDigit && y4.isDigit && s1 == '-' &&
        m1.isDigit && m2.isDigit && s2 == '-' && d1.isDigit && d2.isDigit then
      let y := 1000 * digitVal y1 + 100 * digitVal y2 + 10 * digitVal y3 +
        digitVal y4
      let m := 10 * digitVal m1 + digitVal m2
      let d := 10 * digitVal d1 + digitVal d2
      if 1 ≤ y ∧ 1 ≤ m ∧ m ≤ 12 ∧ 1 ≤ d ∧ d ≤ daysInMonth y m then
        some ⟨y, m, d⟩
      else none
    else none
  | _ => none

/-- `parse_iso` from `app/calendar.py`: empty string is `None`; otherwise
truncate to the first 10 characters and attempt ISO parsing, with parse
failure mapped to `None` instead of an exception. -/
def parse_iso (s : String) : Option Date :=
  if s.isEmpty then none
  else fromisoformat (s.take 10)

/-- Split a character list at every comma, Python `str.split(",")` style:
the empty input gives one empty field. -/
def splitCommaChars : List Char → List (List Char)
  | [] => [[]]
  | c :: cs =>
    if c = ',' then [] :: splitCommaChars cs
    else
      match splitCommaChars cs with
      | [] => [[c]]
      | g :: gs => (c :: g) :: gs

/-- Python `str.split(",")`. -/
def splitOnComma (s : String) : List String :=
  (splitCommaChars s.toList).map String.mk

/-- Whitespace as stripped by Python's `str.strip` (the repository's
inputs only ever carry plain spaces). -/
def isStripChar (c : Char) : Bool :=
  c = ' ' || c = '\t' || c = '\n' || c = '\r' || c = '\x0b' || c = '\x0c'

/-- Python `str.strip`: drop leading and trailing whitespace. -/
def stripChars (l : List Char) : List Char :=
  ((l.dropWhile isStripChar).reverse.dropWhile isStripChar).reverse

/-- Python `str.lower` on the ASCII range (the weekday tokens the
repository feeds it). -/
def lowerChar (c : Char) : Char :=
  if 'A' ≤ c ∧ c ≤ 'Z' then Char.ofNat (c.toNat + 32) else c

/-- `WEEKDAY_ABBR_MAP` from `app/calendar.py`. -/
def WEEKDAY_ABBR_MAP : List (String × Nat) :=
  [("mon", 0), ("tue", 1), ("wed", 2), ("thu", 3), ("fri", 4),
   ("sat", 5), ("sun", 6)]

/-- `parse_weekdays` from `app/calendar.py`: split on commas, strip, lower,
take the first three characters, keep recognized abbreviations
(`part.strip().lower()[:3]` looked up in `WEEKDAY_ABBR_MAP`). -/
def parse_weekdays (weekdays_str : String) : List Nat :=
  (splitOnComma weekdays_str).filterMap fun part =>
    WEEKDAY_ABBR_MAP.lookup
      (String.mk (((stripChars part.toList).map lowerChar).take 3))

/-!  Data model (`app/models/activity.py`), restricted to the fields the
calendar module reads. -/

/-- One `exception_dates` entry: the upstream API supplies either a plain
date string or a record carrying a `date` field; anything else is skipped
by the `isinstance` checks in `expand_pattern_dates`. -/
inductive ExcEntry where
  | str (s : String)
  | record (date : Option String)
  | other
deriving DecidableEq, Repr

/-- `PatternDate` (pydantic model): weekday list plus times of day. -/
structure PatternDate where
  weekdays : String := ""
  starting_time : String := ""
  ending_time : String := ""
deriving DecidableEq, Repr

/-- `ActivityPattern` (pydantic model). -/
structure ActivityPattern where
  beginning_date : String := ""
  ending_date : String := ""
  weeks_of_month : String := ""
  exception_dates : List ExcEntry := []
  pattern_dates : List PatternDate := []
deriving DecidableEq, Repr

/-- `ActionLink` (pydantic model), restricted to the fields read here. -/
structure ActionLink where
  href : String := ""
  label : String := ""
deriving DecidableEq, Repr

/-- `ActivityItem` (pydantic model), restricted to the fields read here. -/
structure ActivityItem where
  id : Int
  name : String := ""
  number : String := ""
  date_range_start : String := ""
  date_range_end : String := ""
  location : Option ActionLink := none
  ages : String := ""
  total_open : Option Int := none
  action_link : Option ActionLink := none
deriving DecidableEq, Repr

/-- `MeetingAndRegistrationDates` (pydantic model), restricted to the
fields read here. -/
structure MeetingAndRegistrationDates where
  activity_id : Int
  no_meeting_dates : Bool := false
  activity_patterns : List ActivityPattern := []
deriving DecidableEq, Repr

/-!  Pattern expansion (`expand_pattern_dates` and its loop bodies). -/

/-- The parsed date of one exception entry: a string entry is parsed
directly, a record entry contributes `exc.get("date", "")` parsed, and
anything else contributes nothing. -/
def excEntryDate : ExcEntry → Option Date
  | .str s => parse_iso s
  | .record d => parse_iso (d.getD "")
  | .other => none

/-- The exception-date set collected by `expand_pattern_dates`: entries
that fail to parse are silently dropped. -/
def pattern_exception_dates (p : ActivityPattern) : Finset Date :=
  (p.exception_dates.filterMap excEntryDate).toFinset

/-- The union of weekday numbers across all `pattern_dates` entries,
mirroring the `all_weekdays.update(parse_weekdays(pd.weekdays))` loop. -/
def pattern_all_weekdays (p : ActivityPattern) : Finset Nat :=
  p.pattern_dates.foldl (fun s pd => s ∪ (parse_weekdays pd.weekdays).toFinset) ∅

/-- Parse the `weeks_of_month` filter: `None` when the string is empty or
no comma-separated token is all digits; otherwise the set of parsed
numbers.  Mirrors the `weeks_of_month` block of `expand_pattern_dates`. -/
def parse_weeks_of_month (s : String) : Option (Finset Nat) :=
  if s.isEmpty then none
  else
    let parsed := ((splitOnComma s).filterMap fun part =>
      let p := stripChars part.toList
      if p.length ≠ 0 ∧ p.all Char.isDigit then some (natOfDigits (String.mk p))
      else none).toFinset
    if parsed = ∅ then none else some parsed

/-- The week-of-month test applied to a candidate date: when the filter is
unset every date passes; otherwise the 1-based ordinal occurrence
`(day - 1) / 7 + 1` of the date's weekday within its month must belong to
the parsed set. -/
def inWeeksFilter (weeks : Option (Finset Nat)) (d : Date) : Bool :=
  match weeks with
  | none => true
  | some w => decide ((d.day - 1) / 7 + 1 ∈ w)

/-- `expand_pattern_dates` from `app/calendar.py`: expand a pattern into
its individual session dates.  The source's day-by-day `while` loop over
`[start, stop]` keeping dates whose weekday is in the union, which are not
exceptions, and which pass the week-of-month filter, is rendered as a
filter over `dateRange start stop`. -/
def expand_pattern_dates (p : ActivityPattern) : Finset Date :=
  match parse_iso p.beginning_date, parse_iso p.ending_date with
  | some start, some stop =>
    (dateRange start stop).toFinset.filter fun d =>
      d.weekday ∈ pattern_all_weekdays p ∧ d ∉ pattern_exception_dates p ∧
        inWeeksFilter (parse_weeks_of_month p.weeks_of_month) d = true
  | _, _ => ∅

/-- The fallback `{d} if d else set()` on the activity's own
`date_range_start`, shared by the fallback branches of
`activity_meeting_dates`. -/
def singletonStart (activity : ActivityItem) : Finset Date :=
  match parse_iso activity.date_range_start with
  | some d => {d}
  | none => ∅

/-- The union of the expansions of all patterns of a meeting-info record
(the `dates.update(expand_pattern_dates(pattern))` loop). -/
def patternsUnion (mi : MeetingAndRegistrationDates) : Finset Date :=
  mi.activity_patterns.foldl (fun s p => s ∪ expand_pattern_dates p) ∅

/-- `activity_meeting_dates` from `app/calendar.py`: the full set of
individual meeting dates for an activity, falling back to the activity's
`date_range_start` when no meeting info is available, when
`no_meeting_dates` is set, or when the patterns produce no dates. -/
def activity_meeting_dates (activity : ActivityItem)
    (meeting_info : Option MeetingAndRegistrationDates) : Finset Date :=
  match meeting_info with
  | none => singletonStart activity
  | some mi =>
    if mi.no_meeting_dates then singletonStart activity
    else
      let dates := patternsUnion mi
      if dates = ∅ then singletonStart activity else dates

/-!  Arithmetic facts about the date model. -/

theorem daysInMonth_pos (y m : Nat) : 1 ≤ daysInMonth y m := by
  unfold daysInMonth
  split_ifs <;> omega

theorem daysInMonth_12 (y : Nat) : daysInMonth y 12 = 31 := rfl

theorem daysBeforeMonth_succ (y m : Nat) (h : 1 ≤ m) :
    daysBeforeMonth y (m + 1) = daysBeforeMonth y m + daysInMonth y m := by
  obtain ⟨m', rfl⟩ : ∃ m', m = m' + 1 := ⟨m - 1, by omega⟩
  rfl

theorem daysBeforeMonth_mono (y : Nat) {m1 m2 : Nat} (h : m1 ≤ m2) :
    daysBeforeMonth y m1 ≤ daysBeforeMonth y m2 := by
  induction m2 with
  | zero =>
    have hm1 : m1 = 0 := by omega
    subst hm1
    exact Nat.le_refl _
  | succ m ih =>
    rcases Nat.lt_or_ge m1 (m + 1) with hlt | hge
    · have hm1m : m1 ≤ m := by omega
      rcases Nat.eq_zero_or_pos m with rfl | hm
      · have hm10 : m1 = 0 := by omega
        subst hm10
        exact Nat.le_refl 0
      · calc daysBeforeMonth y m1 ≤ daysBeforeMonth y m := ih hm1m
          _ ≤ daysBeforeMonth y m + daysInMonth y m := Nat.le_add_right _ _
          _ = daysBeforeMonth y (m + 1) := (daysBeforeMonth_succ y m hm).symm
    · have hm1 : m1 = m + 1 := by omega
      subst hm1
      exact Nat.le_refl _

theorem daysBeforeMonth_13 (y : Nat) :
    daysBeforeMonth y 13 = if isLeapYear y then 366 else 365 := by
  have h : daysBeforeMonth y 13 = 337 + (if isLeapYear y then 29 else 28) := by
    show (((((((((((0 + 31) + daysInMonth y 2) + 31) + 30) + 31) + 30) + 31) +
      31) + 30) + 31) + 30) + 31 = _
    show (((((((((((0 + 31) + (if isLeapYear y then 29 else 28)) + 31) + 30) +
      31) + 30) + 31) + 31) + 30) + 31) + 30) + 31 = _
    split_ifs <;> omega
  rw [h]
  split_ifs <;> omega

theorem isLeapYear_iff (y : Nat) :
    isLeapYear y = true ↔ ((y % 4 = 0 ∧ y % 100 ≠ 0) ∨ y % 400 = 0) := by
  unfold isLeapYear
  simp [Bool.or_eq_true, Bool.and_eq_true, beq_iff_eq, bne_iff_ne]

set_option maxHeartbeats 1000000 in
theorem daysBeforeYear_succ (y : Nat) (h : 1 ≤ y) :
    daysBeforeYear (y + 1) =
      daysBeforeYear y + (if isLeapYear y then 366 else 365) := by
  unfold daysBeforeYear
  simp only [Nat.add_sub_cancel]
  cases hb : isLeapYear y with
  | true =>
    rw [if_pos rfl]
    rcases (isLeapYear_iff y).mp hb with ⟨c4, c100⟩ | c400
    · omega
    · omega
  | false =>
    have hnot : ¬((y % 4 = 0 ∧ y % 100 ≠ 0) ∨ y % 400 = 0) := by
      intro hc
      rw [(isLeapYear_iff y).mpr hc] at hb
      cases hb
    rw [if_neg Bool.false_ne_true]
    by_cases c4 : y % 4 = 0
    · have c100 : y % 100 = 0 := by
        by_contra c100
        exact hnot (Or.inl ⟨c4, c100⟩)
      have c400 : y % 400 ≠ 0 := fun hc => hnot (Or.inr hc)
      omega
    · have c400 : y % 400 ≠ 0 := fun hc => hnot (Or.inr hc)
      omega

theorem daysBeforeYear_add_le {y1 y2 : Nat} (h1 : 1 ≤ y1) (h : y1 < y2) :
    daysBeforeYear y1 + daysBeforeMonth y1 13 ≤ daysBeforeYear y2 := by
  induction y2 with
  | zero => omega
  | succ y ih =>
    rcases Nat.lt_or_ge y1 y with hlt | hge
    · calc daysBeforeYear y1 + daysBeforeMonth y1 13 ≤ daysBeforeYear y :=
          ih hlt
        _ ≤ daysBeforeYear (y + 1) := by
          rw [daysBeforeYear_succ y (by omega)]
          exact Nat.le_add_right _ _
    · have hy1 : y1 = y := by omega
      subst hy1
      rw [daysBeforeYear_succ y1 h1, daysBeforeMonth_13]

/-- Ordinal bounds of a valid date within its year. -/
theorem Date.toOrdinal_year_bounds {d : Date} (h : d.Valid) :
    daysBeforeYear d.year + 1 ≤ d.toOrdinal ∧
      d.toOrdinal ≤ daysBeforeYear d.year + daysBeforeMonth d.year 13 := by
  obtain ⟨hy, hm1, hm2, hd1, hd2⟩ := h
  refine ⟨by unfold Date.toOrdinal; omega, ?_⟩
  have hb : daysBeforeMonth d.year d.month + d.day ≤
      daysBeforeMonth d.year (d.month + 1) := by
    rw [daysBeforeMonth_succ _ _ hm1]
    omega
  have hc : daysBeforeMonth d.year (d.month + 1) ≤ daysBeforeMonth d.year 13 :=
    daysBeforeMonth_mono _ (by omega)
  unfold Date.toOrdinal
  omega

/-- `toOrdinal` is injective on valid dates. -/
theorem Date.toOrdinal_inj {d1 d2 : Date} (h1 : d1.Valid) (h2 : d2.Valid)
    (he : d1.toOrdinal = d2.toOrdinal) : d1 = d2 := by
  have hyear : d1.year = d2.year := by
    by_contra hne
    have haux : ∀ a b : Date, a.Valid → b.Valid → a.year < b.year →
        a.toOrdinal ≠ b.toOrdinal := by
      intro a b ha hb hab
      have b1 := Date.toOrdinal_year_bounds ha
      have b2 := Date.toOrdinal_year_bounds hb
      have hstep := daysBeforeYear_add_le ha.1 hab
      omega
    rcases Nat.lt_or_ge d1.year d2.year with hlt | hge
    · exact haux d1 d2 h1 h2 hlt he
    · exact haux d2 d1 h2 h1 (by omega) he.symm
  have hmonth : d1.month = d2.month := by
    by_contra hne
    have haux : ∀ a b : Date, a.Valid → b.Valid → a.year = b.year →
        a.month < b.month → a.toOrdinal ≠ b.toOrdinal := by
      intro a b ha hb hy hab
      obtain ⟨_, ham1, _, had1, had2⟩ := ha
      obtain ⟨_, hbm1, _, hbd1, _⟩ := hb
      have hstep : daysBeforeMonth a.year a.month + a.day ≤
          daysBeforeMonth a.year (a.month + 1) := by
        rw [daysBeforeMonth_succ _ _ ham1]
        omega
      have hmono : daysBeforeMonth a.year (a.month + 1) ≤
          daysBeforeMonth a.year b.month := daysBeforeMonth_mono _ (by omega)
      unfold Date.toOrdinal
      rw [hy] at hstep hmono ⊢
      omega
    rcases Nat.lt_or_ge d1.month d2.month with hlt | hge
    · exact haux d1 d2 h1 h2 hyear hlt he
    · exact haux d2 d1 h2 h1 hyear.symm (by omega) he.symm
  have hday : d1.day = d2.day := by
    unfold Date.toOrdinal at he
    rw [hyear, hmonth] at he
    omega
  obtain ⟨y1, m1, dd1⟩ := d1
  obtain ⟨y2, m2, dd2⟩ := d2
  simp only at hyear hmonth hday
  rw [hyear, hmonth, hday]

theorem Date.next_valid {d : Date} (h : d.Valid) : d.next.Valid := by
  obtain ⟨y, m, day⟩ := d
  have hy : 1 ≤ y := h.1
  have hm1 : 1 ≤ m := h.2.1
  have hm2 : m ≤ 12 := h.2.2.1
  have hd1 : 1 ≤ day := h.2.2.2.1
  have hd2 : day ≤ daysInMonth y m := h.2.2.2.2
  show (Date.next ⟨y, m, day⟩).Valid
  unfold Date.next
  split_ifs with hlt hm
  · have hlt2 : day < daysInMonth y m := hlt
    refine ⟨hy, hm1, hm2, ?_, ?_⟩
    · show 1 ≤ day + 1
      omega
    · show day + 1 ≤ daysInMonth y m
      omega
  · have hm3 : m < 12 := hm
    refine ⟨hy, ?_, ?_, ?_, ?_⟩
    · show 1 ≤ m + 1
      omega
    · show m + 1 ≤ 12
      omega
    · show 1 ≤ 1
      omega
    · show 1 ≤ daysInMonth y (m + 1)
      exact daysInMonth_pos _ _
  · refine ⟨?_, ?_, ?_, ?_, ?_⟩
    · show 1 ≤ y + 1
      omega
    · show 1 ≤ 1
      omega
    · show 1 ≤ 12
      omega
    · show 1 ≤ 1
      omega
    · show 1 ≤ daysInMonth (y + 1) 1
      exact daysInMonth_pos _ _

theorem Date.toOrdinal_next {d : Date} (h : d.Valid) :
    d.next.toOrdinal = d.toOrdinal + 1 := by
  obtain ⟨y, m, day⟩ := d
  have hy : 1 ≤ y := h.1
  have hm1 : 1 ≤ m := h.2.1
  have hm2 : m ≤ 12 := h.2.2.1
  have hd1 : 1 ≤ day := h.2.2.2.1
  have hd2 : day ≤ daysInMonth y m := h.2.2.2.2
  show (Date.next ⟨y, m, day⟩).toOrdinal = Date.toOrdinal ⟨y, m, day⟩ + 1
  unfold Date.next
  split_ifs with hlt hm
  · show daysBeforeYear y + daysBeforeMonth y m + (day + 1) =
      daysBeforeYear y + daysBeforeMonth y m + day + 1
    omega
  · have hlt2 : ¬(day < daysInMonth y m) := hlt
    show daysBeforeYear y + daysBeforeMonth y (m + 1) + 1 =
      daysBeforeYear y + daysBeforeMonth y m + day + 1
    rw [daysBeforeMonth_succ _ _ hm1]
    omega
  · have hlt2 : ¬(day < daysInMonth y m) := hlt
    have hm3 : ¬(m < 12) := hm
    have hm12 : m = 12 := by omega
    subst hm12
    have hd31 : day = 31 := by
      have h31 : daysInMonth y 12 = 31 := daysInMonth_12 y
      omega
    subst hd31
    show daysBeforeYear (y + 1) + daysBeforeMonth (y + 1) 1 + 1 =
      daysBeforeYear y + daysBeforeMonth y 12 + 31 + 1
    have hz : daysBeforeMonth (y + 1) 1 = 0 := rfl
    have h13 : daysBeforeMonth y 13 =
        daysBeforeMonth y 12 + daysInMonth y 12 :=
      daysBeforeMonth_succ _ _ (by omega)
    have h12v : daysInMonth y 12 = 31 := daysInMonth_12 y
    rw [daysBeforeYear_succ _ hy, hz, ← daysBeforeMonth_13]
    omega

theorem dateList_succ (n : Nat) (d : Date) :
    dateList (n + 1) d = d :: dateList n d.next := by
  obtain ⟨y, m, day⟩ := d
  rfl

/-- Membership in the `n`-day run starting at a valid date `s`: exactly the
valid dates whose ordinal lies in `[s.toOrdinal, s.toOrdinal + n)`. -/
theorem mem_dateList {d : Date} :
    ∀ {n : Nat} {s : Date}, s.Valid →
      (d ∈ dateList n s ↔
        d.Valid ∧ s.toOrdinal ≤ d.toOrdinal ∧ d.toOrdinal < s.toOrdinal + n) := by
  intro n
  induction n with
  | zero =>
    intro s _
    simp only [dateList, List.not_mem_nil, false_iff]
    intro hcon
    omega
  | succ n ih =>
    intro s hs
    rw [dateList_succ, List.mem_cons, ih (Date.next_valid hs),
      Date.toOrdinal_next hs]
    constructor
    · rintro (rfl | ⟨hv, hlo, hhi⟩)
      · exact ⟨hs, Nat.le_refl _, by omega⟩
      · exact ⟨hv, by omega, by omega⟩
    · rintro ⟨hv, hlo, hhi⟩
      rcases Nat.eq_or_lt_of_le hlo with heq | hlt
      · exact Or.inl (Date.toOrdinal_inj hv hs heq.symm)
      · exact Or.inr ⟨hv, by omega, by omega⟩

/-- Membership in the inclusive expansion range: exactly the valid dates
between `start` and `stop` by ordinal. -/
theorem mem_dateRange {d start stop : Date} (hs : start.Valid) :
    d ∈ dateRange start stop ↔
      d.Valid ∧ start.toOrdinal ≤ d.toOrdinal ∧ d.toOrdinal ≤ stop.toOrdinal := by
  unfold dateRange
  rw [mem_dateList hs]
  constructor
  · rintro ⟨hv, h1, h2⟩
    exact ⟨hv, h1, by omega⟩
  · rintro ⟨hv, h1, h2⟩
    exact ⟨hv, h1, by omega⟩

/-!  Parsing produces only valid dates. -/

theorem fromisoformat_valid {s : String} {d : Date}
    (h : fromisoformat s = some d) : d.Valid := by
  unfold fromisoformat at h
  split at h
  · dsimp only at h
    split_ifs at h with h1 hv
    injection h with h
    subst h
    exact ⟨hv.1, hv.2.1, hv.2.2.1, hv.2.2.2.1, hv.2.2.2.2⟩
  · exact absurd h (by simp)

theorem parse_iso_valid {s : String} {d : Date}
    (h : parse_iso s = some d) : d.Valid := by
  unfold parse_iso at h
  split_ifs at h
  exact fromisoformat_valid h

/-!  Characterization of pattern expansion. -/

theorem mem_expand_pattern_dates {p : ActivityPattern} {start stop : Date}
    (hb : parse_iso p.beginning_date = some start)
    (he : parse_iso p.ending_date = some stop) (d : Date) :
    d ∈ expand_pattern_dates p ↔
      d.Valid ∧ start.toOrdinal ≤ d.toOrdinal ∧ d.toOrdinal ≤ stop.toOrdinal ∧
        d.weekday ∈ pattern_all_weekdays p ∧ d ∉ pattern_exception_dates p ∧
        inWeeksFilter (parse_weeks_of_month p.weeks_of_month) d = true := by
  unfold expand_pattern_dates
  rw [hb, he]
  rw [Finset.mem_filter, List.mem_toFinset, mem_dateRange (parse_iso_valid hb)]
  tauto

/-!  Claim C1: expansion with no week-of-month filter. -/

/-- C1: for every pattern whose beginning and ending dates parse and whose
weekday union is non-empty, with no week-of-month filter in effect,
`expand_pattern_dates` returns exactly the dates `d` in the inclusive range
`[start, stop]` whose weekday lies in the union and which are not in the
parsed exception-date set. -/
theorem expand_no_week_filter_charact (p : ActivityPattern)
    (start stop : Date)
    (hb : parse_iso p.beginning_date = some start)
    (he : parse_iso p.ending_date = some stop)
    (hwd : pattern_all_weekdays p ≠ ∅)
    (hwk : parse_weeks_of_month p.weeks_of_month = none)
    (d : Date) :
    d ∈ expand_pattern_dates p ↔
      d.Valid ∧ start.toOrdinal ≤ d.toOrdinal ∧ d.toOrdinal ≤ stop.toOrdinal ∧
        d.weekday ∈ pattern_all_weekdays p ∧ d ∉ pattern_exception_dates p := by
  rw [mem_expand_pattern_dates hb he, hwk]
  unfold inWeeksFilter
  tauto

def c1wP : ActivityPattern :=
  { beginning_date := "2026-03-16", ending_date := "2026-03-22",
    exception_dates := [.str "2026-03-18"],
    pattern_dates := [{ weekdays := "Mon, Wed" }] }

set_option maxRecDepth 1000000 in
/-- Witness for C1 at a concrete pattern and date. -/
theorem expand_no_week_filter_charact_witness :
    (⟨2026, 3, 16⟩ : Date) ∈ expand_pattern_dates c1wP ↔
      (⟨2026, 3, 16⟩ : Date).Valid ∧
        (⟨2026, 3, 16⟩ : Date).toOrdinal ≤ (⟨2026, 3, 16⟩ : Date).toOrdinal ∧
        (⟨2026, 3, 16⟩ : Date).toOrdinal ≤ (⟨2026, 3, 22⟩ : Date).toOrdinal ∧
        (⟨2026, 3, 16⟩ : Date).weekday ∈ pattern_all_weekdays c1wP ∧
        (⟨2026, 3, 16⟩ : Date) ∉ pattern_exception_dates c1wP :=
  expand_no_week_filter_charact c1wP ⟨2026, 3, 16⟩ ⟨2026, 3, 22⟩
    (by decide) (by decide) (by decide) (by decide) ⟨2026, 3, 16⟩

/-!  Claim C4: the week-of-month filter example. -/

set_option maxRecDepth 1000000 in
/-- C4: the pattern over March 2026 with weekday Monday and week filter
`{1, 3}` (the occurrence ordinal being `(day - 1) / 7 + 1`) expands to
exactly March 2 and March 16, 2026. -/
theorem expand_weeks_of_month_example :
    expand_pattern_dates
      { beginning_date := "2026-03-01", ending_date := "2026-03-31",
        weeks_of_month := "1, 3",
        pattern_dates := [{ weekdays := "Mon" }] } =
      {⟨2026, 3, 2⟩, ⟨2026, 3, 16⟩} := by
  decide

/-!  Claim C5: exception dates in both representations. -/

set_option maxRecDepth 1000000 in
/-- C5: exception dates exclude matching dates whether supplied as plain
strings or as records with a `date` field. -/
theorem expand_exception_dates_example :
    expand_pattern_dates
        { beginning_date := "2026-03-16", ending_date := "2026-03-22",
          exception_dates := [.str "2026-03-18"],
          pattern_dates := [{ weekdays := "Mon, Wed" }] } =
        {⟨2026, 3, 16⟩} ∧
      expand_pattern_dates
        { beginning_date := "2026-03-16", ending_date := "2026-03-22",
          exception_dates := [.record (some "2026-03-16")],
          pattern_dates := [{ weekdays := "Mon, Wed" }] } =
        {⟨2026, 3, 18⟩} := by
  constructor
  · decide
  · decide

/-!  Claim C7: unparsable inputs degrade, never raise. -/

theorem expand_empty_of_parse_fail {p : ActivityPattern}
    (h : parse_iso p.beginning_date = none ∨
      parse_iso p.ending_date = none) :
    expand_pattern_dates p = ∅ := by
  unfold expand_pattern_dates
  rcases h with h | h
  · rw [h]
  · rw [h]
    cases parse_iso p.beginning_date <;> rfl

/-- C7: a pattern whose beginning or ending date fails to parse expands to
the empty set, and a malformed exception-date entry is silently dropped
(prepending it changes nothing). -/
theorem expand_unparsable_degrades (p : ActivityPattern) (exc : ExcEntry) :
    ((parse_iso p.beginning_date = none ∨ parse_iso p.ending_date = none) →
      expand_pattern_dates p = ∅) ∧
    (excEntryDate exc = none →
      expand_pattern_dates
          { p with exception_dates := exc :: p.exception_dates } =
        expand_pattern_dates p) := by
  constructor
  · exact expand_empty_of_parse_fail
  · intro hnone
    have hb0 : ({ p with exception_dates := exc :: p.exception_dates } :
        ActivityPattern).beginning_date = p.beginning_date := rfl
    have he0 : ({ p with exception_dates := exc :: p.exception_dates } :
        ActivityPattern).ending_date = p.ending_date := rfl
    have hwd0 : pattern_all_weekdays
        { p with exception_dates := exc :: p.exception_dates } =
        pattern_all_weekdays p := rfl
    have hwk0 : ({ p with exception_dates := exc :: p.exception_dates } :
        ActivityPattern).weeks_of_month = p.weeks_of_month := rfl
    have hexc : pattern_exception_dates
        { p with exception_dates := exc :: p.exception_dates } =
        pattern_exception_dates p := by
      unfold pattern_exception_dates
      show ((exc :: p.exception_dates).filterMap excEntryDate).toFinset = _
      rw [List.filterMap_cons]
      rw [hnone]
    unfold expand_pattern_dates
    rw [hb0, he0, hwd0, hwk0, hexc]

set_option maxRecDepth 1000000 in
/-- Witness for C7: an unparsable beginning date yields the empty set, and
an unparsable exception entry is dropped without effect. -/
theorem expand_unparsable_degrades_witness :
    expand_pattern_dates
        { beginning_date := "soon", ending_date := "2026-03-22",
          pattern_dates := [{ weekdays := "Mon" }] } = ∅ ∧
      expand_pattern_dates
        { beginning_date := "2026-03-16", ending_date := "2026-03-22",
          exception_dates := [ExcEntry.str "bogus"],
          pattern_dates := [{ weekdays := "Mon, Wed" }] } =
        expand_pattern_dates
          { beginning_date := "2026-03-16", ending_date := "2026-03-22",
            exception_dates := [],
            pattern_dates := [{ weekdays := "Mon, Wed" }] } :=
  ⟨(expand_unparsable_degrades
      { beginning_date := "soon", ending_date := "2026-03-22",
        pattern_dates := [{ weekdays := "Mon" }] } ExcEntry.other).1
      (Or.inl (by decide)),
   (expand_unparsable_degrades
      { beginning_date := "2026-03-16", ending_date := "2026-03-22",
        exception_dates := [],
        pattern_dates := [{ weekdays := "Mon, Wed" }] }
      (ExcEntry.str "bogus")).2 (by decide)⟩

/-!  Claim C10: an all-zero week filter is present and empties the
expansion, because the occurrence ordinal is always at least 1. -/

/-- C10: when the `weeks_of_month` string parses to a set of zeros (for
example `"0"` parses to `{0}`, a present filter), the expansion is empty
for every date range and weekday union, since `(day - 1) / 7 + 1 ≥ 1`. -/
theorem expand_zero_weeks_empty (p : ActivityPattern) (ws : Finset Nat)
    (hws : parse_weeks_of_month p.weeks_of_month = some ws)
    (hzero : ∀ w ∈ ws, w = 0) :
    parse_weeks_of_month "0" = some {0} ∧ expand_pattern_dates p = ∅ := by
  refine ⟨by decide, ?_⟩
  unfold expand_pattern_dates
  cases hb : parse_iso p.beginning_date with
  | none => rfl
  | some s =>
    cases he : parse_iso p.ending_date with
    | none => rfl
    | some t =>
      rw [Finset.filter_eq_empty_iff]
      intro d hd
      rw [hws]
      rintro ⟨h1, h2, h3⟩
      unfold inWeeksFilter at h3
      have h4 : (d.day - 1) / 7 + 1 ∈ ws := of_decide_eq_true h3
      have h5 := hzero _ h4
      omega

set_option maxRecDepth 1000000 in
/-- Witness for C10 at a concrete pattern with `weeks_of_month = "0"`. -/
theorem expand_zero_weeks_empty_witness :
    parse_weeks_of_month "0" = some {0} ∧
      expand_pattern_dates
        { beginning_date := "2026-03-01", ending_date := "2026-03-31",
          weeks_of_month := "0",
          pattern_dates := [{ weekdays := "Mon" }] } = ∅ :=
  expand_zero_weeks_empty
    { beginning_date := "2026-03-01", ending_date := "2026-03-31",
      weeks_of_month := "0",
      pattern_dates := [{ weekdays := "Mon" }] }
    {0} (by decide) (by decide)

/-!  Claim C3: the three fallback paths of `activity_meeting_dates`. -/

/-- C3: `activity_meeting_dates` returns the singleton parsed
`date_range_start` (or the empty set when it is unparsable) when meeting
info is absent, when `no_meeting_dates` is set, and when the union of the
pattern expansions is empty — the same observable result in all three
cases. -/
theorem meeting_dates_fallback (a : ActivityItem)
    (mi1 mi2 : MeetingAndRegistrationDates)
    (h1 : mi1.no_meeting_dates = true)
    (h2 : mi2.no_meeting_dates = false)
    (h3 : patternsUnion mi2 = ∅) :
    activity_meeting_dates a none = singletonStart a ∧
      activity_meeting_dates a (some mi1) = singletonStart a ∧
      activity_meeting_dates a (some mi2) = singletonStart a := by
  refine ⟨rfl, ?_, ?_⟩
  · unfold activity_meeting_dates
    simp [h1]
  · unfold activity_meeting_dates
    simp [h2, h3]

def c3wA : ActivityItem := { id := 1, date_range_start := "2026-03-16" }

def c3wMi1 : MeetingAndRegistrationDates :=
  { activity_id := 1, no_meeting_dates := true }

def c3wMi2 : MeetingAndRegistrationDates :=
  { activity_id := 1,
    activity_patterns := [{ beginning_date := "x", ending_date := "y" }] }

set_option maxRecDepth 1000000 in
/-- Witness for C3 at concrete activity and meeting-info records. -/
theorem meeting_dates_fallback_witness :
    activity_meeting_dates c3wA none = singletonStart c3wA ∧
      activity_meeting_dates c3wA (some c3wMi1) = singletonStart c3wA ∧
      activity_meeting_dates c3wA (some c3wMi2) = singletonStart c3wA :=
  meeting_dates_fallback c3wA c3wMi1 c3wMi2 (by decide) (by decide) (by decide)

/-!  Calendar assembler (`build_calendar_data` of `app/calendar.py`). -/

/-- `PILL_COLORS` from `app/calendar.py`: 20 distinct pill colors. -/
def PILL_COLORS : List String :=
  ["#1a5276", "#117a65", "#784212", "#6c3483", "#1a618f",
   "#922b21", "#7d6608", "#1e8449", "#d35400", "#2e4053",
   "#148f77", "#b03a2e", "#1f618d", "#7b241c", "#196f3d",
   "#a04000", "#4a235a", "#0e6655", "#7e5109", "#2874a6"]

/-- `CalendarEvent` (TypedDict). -/
structure CalendarEvent where
  id : Int
  name : String
  color : String
  location : String
  ages : String
  total_open : Option Int
  action_link_href : String
  action_link_label : String
  date_range_start : String
  date_range_end : String
  starting_time : String
  ending_time : String
  number : String
deriving DecidableEq, Repr

/-- `CalendarDay` (TypedDict). -/
structure CalendarDay where
  day : Nat
  in_month : Bool
  iso_date : String
  is_today : Bool
  events : List CalendarEvent
deriving DecidableEq, Repr

/-- `CalendarMonth` (TypedDict). -/
structure CalendarMonth where
  year : Nat
  month : Nat
  name : String
  weeks : List (List CalendarDay)
deriving DecidableEq, Repr

/-- The `time_slots` collection loop of `build_calendar_data`: all
`(starting_time, ending_time)` pairs of pattern dates with a non-empty
starting time, across all patterns. -/
def pattern_time_slots (mi : MeetingAndRegistrationDates) :
    List (String × String) :=
  (mi.activity_patterns.map fun p =>
    p.pattern_dates.filterMap fun pd =>
      if pd.starting_time ≠ "" then some (pd.starting_time, pd.ending_time)
      else none).flatten

/-- The slot-deduplication loop of `build_calendar_data`: keep the first
occurrence of each slot, preserving order. -/
def uniqueFirst (l : List (String × String)) : List (String × String) :=
  l.foldl (fun acc slot => if slot ∈ acc then acc else acc ++ [slot]) []

/-- Construction of one `CalendarEvent` from an enumerated activity and its
optional meeting info, exactly as in the body of the activity loop of
`build_calendar_data` (color by `index % len(PILL_COLORS)`, first unique
time slot truncated to `HH:MM`, `"Enroll"` label fallback only when the
action link is absent). -/
def mkCalendarEvent (index : Nat) (activity : ActivityItem)
    (meeting_info : Option MeetingAndRegistrationDates) : CalendarEvent :=
  let time_slots := match meeting_info with
    | some mi => pattern_time_slots mi
    | none => []
  let unique_slots := uniqueFirst time_slots
  { id := activity.id
    name := activity.name
    color := PILL_COLORS.getD (index % PILL_COLORS.length) ""
    location := (activity.location.map (fun l => l.label)).getD ""
    ages := activity.ages
    total_open := activity.total_open
    action_link_href := (activity.action_link.map (fun l => l.href)).getD ""
    action_link_label := (activity.action_link.map (fun l => l.label)).getD "Enroll"
    date_range_start := activity.date_range_start
    date_range_end := activity.date_range_end
    starting_time := ((unique_slots.head?.map (fun s => s.1)).getD "").take 5
    ending_time := ((unique_slots.head?.map (fun s => s.2)).getD "").take 5
    number := activity.number }

/-- Lexicographic order on dates; on valid dates this is Python's date
order.  Used only to fix a deterministic iteration order for Python's
(order-irrelevant) `for d in all_dates` over a set. -/
def dateLexLe (a b : Date) : Prop :=
  a.year < b.year ∨ (a.year = b.year ∧
    (a.month < b.month ∨ (a.month = b.month ∧ a.day ≤ b.day)))

theorem Date.ext_fields {a b : Date} (h1 : a.year = b.year)
    (h2 : a.month = b.month) (h3 : a.day = b.day) : a = b := by
  obtain ⟨y1, m1, d1⟩ := a
  obtain ⟨y2, m2, d2⟩ := b
  simp only at h1 h2 h3
  rw [h1, h2, h3]

instance : DecidableRel dateLexLe := fun a b => by
  unfold dateLexLe; infer_instance

instance : IsTrans Date dateLexLe where
  trans a b c hab hbc := by
    unfold dateLexLe at *
    rcases hab with h | ⟨h1, h | ⟨h2, h3⟩⟩ <;>
      rcases hbc with g | ⟨g1, g | ⟨g2, g3⟩⟩ <;> omega

instance : IsAntisymm Date dateLexLe where
  antisymm a b hab hba := by
    unfold dateLexLe at *
    rcases hab with h | ⟨h1, h | ⟨h2, h3⟩⟩ <;>
      rcases hba with g | ⟨g1, g | ⟨g2, g3⟩⟩ <;>
        exact Date.ext_fields (by omega) (by omega) (by omega)

instance : IsTotal Date dateLexLe where
  total a b := by
    unfold dateLexLe
    omega

/-- Boolean form of the date order. -/
def dateLeB (a b : Date) : Bool := decide (dateLexLe a b)

/-- Insertion into an ascending list. -/
def insertSorted (a : Date) : List Date → List Date
  | [] => [a]
  | x :: xs => if dateLeB a x then a :: x :: xs else x :: insertSorted a xs

theorem dateLeB_total (a b : Date) : dateLeB a b = true ∨ dateLeB b a = true := by
  unfold dateLeB
  rcases total_of dateLexLe a b with h | h
  · exact Or.inl (decide_eq_true h)
  · exact Or.inr (decide_eq_true h)

theorem dateLeB_antisymm {a b : Date} (h1 : dateLeB a b = true)
    (h2 : dateLeB b a = true) : a = b :=
  antisymm (of_decide_eq_true h1) (of_decide_eq_true h2)

theorem dateLeB_trans {a b c : Date} (h1 : dateLeB a b = true)
    (h2 : dateLeB b c = true) : dateLeB a c = true :=
  decide_eq_true
    (Trans.trans (of_decide_eq_true h1) (of_decide_eq_true h2))

theorem insertSorted_comm (a b : Date) (l : List Date) :
    insertSorted a (insertSorted b l) = insertSorted b (insertSorted a l) := by
  by_cases hab : a = b
  · subst hab
    rfl
  induction l with
  | nil =>
    by_cases h1 : dateLeB a b <;> by_cases h2 : dateLeB b a
    · exact absurd (dateLeB_antisymm h1 h2) hab
    · simp [insertSorted, h1, h2]
    · simp [insertSorted, h1, h2]
    · rcases dateLeB_total a b with h | h
      · exact absurd h h1
      · exact absurd h h2
  | cons x xs ih =>
    by_cases hax : dateLeB a x <;> by_cases hbx : dateLeB b x
    · by_cases h1 : dateLeB a b
      · have h2 : dateLeB b a = false := by
          rcases hb2 : dateLeB b a
          · rfl
          · exact absurd (dateLeB_antisymm h1 hb2) hab
        simp [insertSorted, hax, hbx, h1, h2]
      · have h2 : dateLeB b a = true := by
          rcases dateLeB_total a b with h | h
          · exact absurd h (by simpa using h1)
          · exact h
        simp [insertSorted, hax, hbx, h1, h2]
    · have h2 : dateLeB b a = false := by
        rcases hb2 : dateLeB b a
        · rfl
        · exact absurd (dateLeB_trans hb2 hax) (by simpa using hbx)
      simp [insertSorted, hax, hbx, h2]
    · have h2 : dateLeB a b = false := by
        rcases hb2 : dateLeB a b
        · rfl
        · exact absurd (dateLeB_trans hb2 hbx) (by simpa using hax)
      simp [insertSorted, hax, hbx, h2]
    · simp [insertSorted, hax, hbx, ih]

instance : LeftCommutative insertSorted := ⟨insertSorted_comm⟩

/-- A date set in ascending order: a deterministic stand-in for Python's
(order-irrelevant) iteration over `all_dates`. -/
def sortedDates (s : Finset Date) : List Date :=
  Multiset.foldr insertSorted [] s.val

theorem mem_insertSorted {x a : Date} {l : List Date} :
    x ∈ insertSorted a l ↔ x = a ∨ x ∈ l := by
  induction l with
  | nil => simp [insertSorted]
  | cons y ys ih =>
    unfold insertSorted
    split_ifs with h
    · simp
    · simp only [List.mem_cons, ih]
      tauto

theorem nodup_insertSorted {a : Date} {l : List Date} (hl : l.Nodup)
    (ha : a ∉ l) : (insertSorted a l).Nodup := by
  induction l with
  | nil => simp [insertSorted]
  | cons y ys ih =>
    unfold insertSorted
    split_ifs with h
    · exact List.nodup_cons.mpr ⟨ha, hl⟩
    · rw [List.nodup_cons] at hl
      rw [List.nodup_cons]
      constructor
      · rw [mem_insertSorted]
        rintro (rfl | hy)
        · exact ha (List.mem_cons_self _ _)
        · exact hl.1 hy
      · exact ih hl.2 (fun hmem => ha (List.mem_cons_of_mem _ hmem))

theorem mem_sortedDates {x : Date} {s : Finset Date} :
    x ∈ sortedDates s ↔ x ∈ s := by
  unfold sortedDates
  rw [← Finset.mem_def.symm]
  show x ∈ Multiset.foldr insertSorted [] s.val ↔ x ∈ s.val
  induction s.val using Multiset.induction_on with
  | empty => simp
  | cons a t ih =>
    rw [Multiset.foldr_cons, mem_insertSorted, ih]
    simp

theorem nodup_sortedDates (s : Finset Date) : (sortedDates s).Nodup := by
  unfold sortedDates
  have hgen : ∀ m : Multiset Date, m.Nodup →
      (Multiset.foldr insertSorted [] m).Nodup ∧
        (∀ x, x ∈ Multiset.foldr insertSorted [] m ↔ x ∈ m) := by
    intro m
    induction m using Multiset.induction_on with
    | empty => simp
    | cons a t ih =>
      intro hnd
      rw [Multiset.nodup_cons] at hnd
      obtain ⟨hih1, hih2⟩ := ih hnd.2
      constructor
      · rw [Multiset.foldr_cons]
        exact nodup_insertSorted hih1 (fun hmem => hnd.1 ((hih2 a).mp hmem))
      · intro x
        rw [Multiset.foldr_cons, mem_insertSorted, hih2]
        simp
  exact (hgen s.val s.nodup).1

/-- The running state of the activity loop of `build_calendar_data`:
the `event_by_date` map (as a function defaulting to `[]`, matching
`event_by_date.get(d, [])`) plus `earliest_date` and `latest_date`. -/
structure CollectState where
  events : Date → List CalendarEvent
  earliest : Option Date
  latest : Option Date

/-- `if earliest_date is None or d < earliest_date: earliest_date = d`. -/
def minDateStep (o : Option Date) (d : Date) : Option Date :=
  match o with
  | none => some d
  | some e => if d.toOrdinal < e.toOrdinal then some d else some e

/-- `if latest_date is None or d > latest_date: latest_date = d`. -/
def maxDateStep (o : Option Date) (d : Date) : Option Date :=
  match o with
  | none => some d
  | some e => if e.toOrdinal < d.toOrdinal then some d else some e

/-- One iteration of `for d in all_dates`: append the activity's event to
the date's bucket and update the running date bounds. -/
def stepDate (ev : CalendarEvent) (s : CollectState) (d : Date) :
    CollectState :=
  { events := fun x => if x = d then s.events d ++ [ev] else s.events x
    earliest := minDateStep s.earliest d
    latest := maxDateStep s.latest d }

def emptyCollectState : CollectState := ⟨fun _ => [], none, none⟩

/-- One iteration of the activity loop of `build_calendar_data`. -/
def collectActivity
    (meeting_dates : Int → Option MeetingAndRegistrationDates)
    (s : CollectState) (ia : Nat × ActivityItem) : CollectState :=
  let mi := meeting_dates ia.2.id
  let ev := mkCalendarEvent ia.1 ia.2 mi
  (sortedDates (activity_meeting_dates ia.2 mi)).foldl (stepDate ev) s

/-- The whole activity loop of `build_calendar_data`. -/
def collectAll (activities : List ActivityItem)
    (meeting_dates : Int → Option MeetingAndRegistrationDates) :
    CollectState :=
  activities.enum.foldl (collectActivity meeting_dates) emptyCollectState

/-- Break a flat cell list into rows of 7 (fuelled by the list length). -/
def chunks7 : Nat → List Nat → List (List Nat)
  | 0, _ => []
  | _, [] => []
  | fuel + 1, l => l.take 7 :: chunks7 fuel (l.drop 7)

/-- Python's `calendar.monthcalendar(year, month)` with the default Monday
first weekday: full Monday-aligned weeks covering the month, out-of-month
cells zero. -/
def monthcalendar (y m : Nat) : List (List Nat) :=
  let firstWeekday := (Date.mk y m 1).weekday
  let ndays := daysInMonth y m
  let cells := List.replicate firstWeekday 0 ++ (List.range ndays).map (· + 1)
  let padded := cells ++ List.replicate ((7 - cells.length % 7) % 7) 0
  chunks7 padded.length padded

/-- Python's `"%B"` month names. -/
def monthName : Nat → String
  | 1 => "January"
  | 2 => "February"
  | 3 => "March"
  | 4 => "April"
  | 5 => "May"
  | 6 => "June"
  | 7 => "July"
  | 8 => "August"
  | 9 => "September"
  | 10 => "October"
  | 11 => "November"
  | 12 => "December"
  | _ => ""

/-- One grid cell of the month loop of `build_calendar_data`: day 0 is the
out-of-month placeholder; otherwise an in-month day with its ISO date,
today flag and events bucket. -/
def mkCalendarDay (today : Date) (events : Date → List CalendarEvent)
    (y m day_num : Nat) : CalendarDay :=
  if day_num = 0 then
    { day := 0, in_month := false, iso_date := "", is_today := false,
      events := [] }
  else
    { day := day_num, in_month := true,
      iso_date := (Date.mk y m day_num).isoformat,
      is_today := decide (Date.mk y m day_num = today),
      events := events (Date.mk y m day_num) }

/-- One `CalendarMonth` of the month loop (`strftime("%B %Y")` name). -/
def mkCalendarMonth (today : Date) (events : Date → List CalendarEvent)
    (ym : Nat × Nat) : CalendarMonth :=
  { year := ym.1, month := ym.2,
    name := monthName ym.2 ++ " " ++ toString ym.1,
    weeks := (monthcalendar ym.1 ym.2).map fun week =>
      week.map (mkCalendarDay today events ym.1 ym.2) }

/-- The December → January month rollover of the month loop. -/
def nextMonth (ym : Nat × Nat) : Nat × Nat :=
  if ym.2 = 12 then (ym.1 + 1, 1) else (ym.1, ym.2 + 1)

/-- The month iteration, fuelled by the month count. -/
def monthSeq : Nat → (Nat × Nat) → List (Nat × Nat)
  | 0, _ => []
  | n + 1, ym => ym :: monthSeq n (nextMonth ym)

/-- Number of months visited by `while cur_month <= end_month`. -/
def monthCount (startYM stopYM : Nat × Nat) : Nat :=
  12 * stopYM.1 + stopYM.2 + 1 - (12 * startYM.1 + startYM.2)

/-- `build_calendar_data` from `app/calendar.py`.  The source reads the
current date with `datetime.date.today()`; the embedding takes that
ambient value as the explicit parameter `today`. -/
def build_calendar_data (today : Date) (activities : List ActivityItem)
    (meeting_dates : Int → Option MeetingAndRegistrationDates) :
    List CalendarMonth :=
  if activities = [] then []
  else
    let st := collectAll activities meeting_dates
    match st.earliest, st.latest with
    | some lo, some hi =>
      (monthSeq (monthCount (lo.year, lo.month) (hi.year, hi.month))
          (lo.year, lo.month)).map
        (mkCalendarMonth today st.events)
    | _, _ => []

/-!  Query-string builder (`build_query_string` of `app/calendar.py`). -/

/-- The filter-parameter dict read by `build_query_string`, with Python
falsy defaults. -/
structure QueryParams where
  q : String := ""
  date_after : String := ""
  date_before : String := ""
  category_ids : List Int := []
  center_ids : List Int := []
  show_full_details : Bool := false
  view : String := ""
deriving DecidableEq, Repr

def hexUpperDigit (n : Nat) : Char :=
  "0123456789ABCDEF".toList.getD n '0'

/-- UTF-8 bytes of a scalar value. -/
def utf8Encode (n : Nat) : List Nat :=
  if n < 128 then [n]
  else if n < 2048 then [192 + n / 64, 128 + n % 64]
  else if n < 65536 then
    [224 + n / 4096, 128 + (n / 64) % 64, 128 + n % 64]
  else
    [240 + n / 262144, 128 + (n / 4096) % 64, 128 + (n / 64) % 64,
     128 + n % 64]

/-- Characters `urllib.parse.quote_plus` leaves unescaped (no extra safe
characters, as `urlencode` uses it on values). -/
def isUrlSafe (c : Char) : Bool :=
  c.isAlphanum || c = '_' || c = '.' || c = '-' || c = '~'

/-- Python's `urllib.parse.quote_plus`: spaces become `+`, safe characters
pass through, everything else is percent-encoded per UTF-8 byte. -/
def quote_plus (s : String) : String :=
  String.mk (s.toList.foldr (fun c acc =>
    if c = ' ' then '+' :: acc
    else if isUrlSafe c then c :: acc
    else (utf8Encode c.toNat).foldr
      (fun b acc2 => '%' :: hexUpperDigit (b / 16) :: hexUpperDigit (b % 16)
        :: acc2) acc) [])

/-- Python's `urllib.parse.urlencode` on a list of pairs. -/
def urlencode (ps : List (String × String)) : String :=
  String.intercalate "&" (ps.map fun kv =>
    quote_plus kv.1 ++ "=" ++ quote_plus kv.2)

/-- `build_query_string` from `app/calendar.py`: re-serialize the allow-
listed filter keys (truthy values only, `view` only when not `"card"`)
followed by the page number. -/
def build_query_string (params : QueryParams) (page : Int) : String :=
  let query_params :=
    (if params.q ≠ "" then [("q", params.q)] else []) ++
    (if params.date_after ≠ "" then [("date_after", params.date_after)]
      else []) ++
    (if params.date_before ≠ "" then [("date_before", params.date_before)]
      else []) ++
    (params.category_ids.map fun cat_id => ("category_ids", toString cat_id)) ++
    (params.center_ids.map fun center_id => ("center_ids", toString center_id)) ++
    (if params.show_full_details then [("show_full_details", "true")]
      else []) ++
    (if params.view ≠ "" ∧ params.view ≠ "card" then [("view", params.view)]
      else []) ++
    [("page", toString page)]
  urlencode query_params

/-!  Claim C8: determinism and ambient state.

`expand_pattern_dates` and `build_query_string` are plain functions of
their inputs.  `build_calendar_data`, however, reads the current date
(`datetime.date.today()`, the explicit `today` parameter here) and records
it in each cell's `is_today` flag, so its output is not independent of
ambient state.  Everything except the `is_today` flags is. -/

/-- Erase the one `today`-dependent field of a day cell. -/
def stripDayToday (c : CalendarDay) : CalendarDay :=
  { c with is_today := false }

/-- Erase the `today`-dependent fields of a month. -/
def stripMonthToday (mo : CalendarMonth) : CalendarMonth :=
  { mo with weeks := mo.weeks.map fun w => w.map stripDayToday }

theorem stripDayToday_mkCalendarDay (t1 t2 : Date)
    (ev : Date → List CalendarEvent) (y m n : Nat) :
    stripDayToday (mkCalendarDay t1 ev y m n) =
      stripDayToday (mkCalendarDay t2 ev y m n) := by
  unfold mkCalendarDay stripDayToday
  split_ifs <;> rfl

theorem stripMonthToday_mkCalendarMonth (t1 t2 : Date)
    (ev : Date → List CalendarEvent) (ym : Nat × Nat) :
    stripMonthToday (mkCalendarMonth t1 ev ym) =
      stripMonthToday (mkCalendarMonth t2 ev ym) := by
  unfold mkCalendarMonth stripMonthToday
  simp only [List.map_map, CalendarMonth.mk.injEq, true_and]
  apply List.map_congr_left
  intro w _
  simp only [Function.comp, List.map_map]
  apply List.map_congr_left
  intro n _
  exact stripDayToday_mkCalendarDay t1 t2 ev ym.1 ym.2 n

/-- C8 (amended): for fixed inputs, `build_calendar_data` computed at two
different current dates agrees everywhere except the `is_today` flags; in
particular, for a fixed current date it is a deterministic function of its
inputs, as are `expand_pattern_dates` and `build_query_string`. -/
theorem build_today_independent_except_flag (t1 t2 : Date)
    (acts : List ActivityItem)
    (md : Int → Option MeetingAndRegistrationDates) :
    (build_calendar_data t1 acts md).map stripMonthToday =
      (build_calendar_data t2 acts md).map stripMonthToday := by
  simp only [build_calendar_data]
  split_ifs with h
  · rfl
  · cases (collectAll acts md).earliest with
    | none => rfl
    | some lo =>
      cases (collectAll acts md).latest with
      | none => rfl
      | some hi =>
        simp only [List.map_map]
        apply List.map_congr_left
        intro ym _
        simp only [Function.comp]
        exact stripMonthToday_mkCalendarMonth t1 t2 _ ym

def c8wA : ActivityItem :=
  { id := 1, name := "Yoga", date_range_start := "2026-03-16" }

def c8wMd : Int → Option MeetingAndRegistrationDates := fun _ => none

set_option maxRecDepth 1000000 in
/-- Counterexample for C8 as stated: with identical inputs,
`build_calendar_data` run on two different current dates (the ambient
state `datetime.date.today()` reads) returns different outputs — the
`is_today` flag of 2026-03-16 differs. -/
theorem build_depends_on_ambient_today :
    build_calendar_data ⟨2026, 3, 16⟩ [c8wA] c8wMd ≠
      build_calendar_data ⟨2026, 3, 17⟩ [c8wA] c8wMd := by
  decide

/-!  Claim C6: the grid invariant. -/

theorem chunks7_mem_length :
    ∀ (fuel : Nat) (l : List Nat), l.length ≤ fuel → 7 ∣ l.length →
      ∀ w ∈ chunks7 fuel l, w.length = 7 := by
  intro fuel
  induction fuel with
  | zero =>
    intro l hl hdvd w hw
    simp [chunks7] at hw
  | succ n ih =>
    intro l hl hdvd w hw
    cases l with
    | nil => simp [chunks7] at hw
    | cons a as =>
      unfold chunks7 at hw
      rcases List.mem_cons.mp hw with rfl | hw2
      · rw [List.length_take]
        have hlen : (a :: as).length = as.length + 1 := rfl
        rw [hlen] at hdvd ⊢
        omega
      · refine ih _ ?_ ?_ w hw2
        · rw [List.length_drop]
          have hlen : (a :: as).length = as.length + 1 := rfl
          omega
        · rw [List.length_drop]
          have hlen : (a :: as).length = as.length + 1 := rfl
          rw [hlen] at hdvd
          omega

theorem monthcalendar_week_length (y m : Nat) :
    ∀ w ∈ monthcalendar y m, w.length = 7 := by
  intro w hw
  simp only [monthcalendar] at hw
  refine chunks7_mem_length _ _ (Nat.le_refl _) ?_ w hw
  rw [List.length_append, List.length_replicate]
  omega

theorem mkCalendarMonth_grid (today : Date) (ev : Date → List CalendarEvent)
    (ym : Nat × Nat) :
    ∀ w ∈ (mkCalendarMonth today ev ym).weeks, w.length = 7 ∧
      ∀ c ∈ w, c.in_month = false →
        c.day = 0 ∧ c.iso_date = "" ∧ c.events = [] := by
  intro w hw
  unfold mkCalendarMonth at hw
  obtain ⟨w0, hw0, rfl⟩ := List.mem_map.mp hw
  refine ⟨by rw [List.length_map]; exact monthcalendar_week_length _ _ _ hw0, ?_⟩
  intro c hc hcm
  obtain ⟨n, hn, rfl⟩ := List.mem_map.mp hc
  unfold mkCalendarDay at hcm ⊢
  split_ifs at hcm ⊢ with h
  exact ⟨rfl, rfl, rfl⟩

/-- C6: in every month returned by `build_calendar_data`, every week is a
row of exactly 7 cells, and every out-of-month cell has `in_month = false`
with day 0, empty ISO date and an empty event list. -/
theorem calendar_grid_invariant (today : Date) (acts : List ActivityItem)
    (md : Int → Option MeetingAndRegistrationDates) :
    ((build_calendar_data today acts md).all fun mo =>
      mo.weeks.all fun w =>
        (w.length == 7) && w.all fun c =>
          c.in_month ||
            ((c.day == 0) && (c.iso_date == "") && decide (c.events = []))) =
      true := by
  rw [List.all_eq_true]
  intro mo hmo
  have hgrid : ∀ w ∈ mo.weeks, w.length = 7 ∧
      ∀ c ∈ w, c.in_month = false →
        c.day = 0 ∧ c.iso_date = "" ∧ c.events = [] := by
    simp only [build_calendar_data] at hmo
    split_ifs at hmo with h
    · simp at hmo
    · rcases he : (collectAll acts md).earliest with _ | lo
      · rw [he] at hmo
        have hmo2 : mo ∈ ([] : List CalendarMonth) := hmo
        simp at hmo2
      · rcases hl : (collectAll acts md).latest with _ | hi
        · rw [he, hl] at hmo
          have hmo2 : mo ∈ ([] : List CalendarMonth) := hmo
          simp at hmo2
        · rw [he, hl] at hmo
          have hmo2 : mo ∈ (monthSeq
              (monthCount (lo.year, lo.month) (hi.year, hi.month))
              (lo.year, lo.month)).map
              (mkCalendarMonth today (collectAll acts md).events) := hmo
          obtain ⟨ym, _, rfl⟩ := List.mem_map.mp hmo2
          exact mkCalendarMonth_grid today _ ym
  rw [List.all_eq_true]
  intro w hw
  obtain ⟨hlen, hcells⟩ := hgrid w hw
  rw [Bool.and_eq_true]
  constructor
  · rw [beq_iff_eq]
    exact hlen
  · rw [List.all_eq_true]
    intro c hc
    cases hin : c.in_month with
    | true => rw [Bool.or_eq_true]; exact Or.inl rfl
    | false =>
      obtain ⟨h1, h2, h3⟩ := hcells c hc hin
      rw [Bool.or_eq_true]
      refine Or.inr ?_
      rw [Bool.and_eq_true, Bool.and_eq_true]
      exact ⟨⟨beq_iff_eq.mpr h1, beq_iff_eq.mpr h2⟩, decide_eq_true h3⟩

/-!  Characterization of the activity-collection loop. -/

theorem foldl_stepDate_earliest (ev : CalendarEvent) (l : List Date) :
    ∀ s : CollectState,
      (l.foldl (stepDate ev) s).earliest = l.foldl minDateStep s.earliest := by
  induction l with
  | nil => intro s; rfl
  | cons d ds ih =>
    intro s
    rw [List.foldl_cons, List.foldl_cons, ih]
    rfl

theorem foldl_stepDate_latest (ev : CalendarEvent) (l : List Date) :
    ∀ s : CollectState,
      (l.foldl (stepDate ev) s).latest = l.foldl maxDateStep s.latest := by
  induction l with
  | nil => intro s; rfl
  | cons d ds ih =>
    intro s
    rw [List.foldl_cons, List.foldl_cons, ih]
    rfl

theorem foldl_stepDate_events (ev : CalendarEvent) (l : List Date) :
    ∀ (s : CollectState) (x : Date), l.Nodup →
      (l.foldl (stepDate ev) s).events x =
        if x ∈ l then s.events x ++ [ev] else s.events x := by
  induction l with
  | nil =>
    intro s x _
    simp
  | cons d ds ih =>
    intro s x hnd
    rw [List.foldl_cons]
    rw [List.nodup_cons] at hnd
    rw [ih _ x hnd.2]
    by_cases hx : x ∈ ds
    · rw [if_pos hx, if_pos (List.mem_cons_of_mem _ hx)]
      have hxd : x ≠ d := fun h => hnd.1 (h ▸ hx)
      show (if x = d then s.events d ++ [ev] else s.events x) ++ [ev] =
        s.events x ++ [ev]
      rw [if_neg hxd]
    · rw [if_neg hx]
      by_cases hxd : x = d
      · subst hxd
        rw [if_pos (List.mem_cons_self _ _)]
        show (if x = x then s.events x ++ [ev] else s.events x) =
          s.events x ++ [ev]
        rw [if_pos rfl]
      · rw [if_neg (by simp [hxd, hx])]
        show (if x = d then s.events d ++ [ev] else s.events x) = s.events x
        rw [if_neg hxd]

/-- What the running `earliest_date` tracks: `none` exactly on the empty
set, otherwise a minimum of the set. -/
def MinInv (o : Option Date) (S : Finset Date) : Prop :=
  (o = none ↔ S = ∅) ∧
    ∀ x, o = some x → x ∈ S ∧ ∀ d ∈ S, x.toOrdinal ≤ d.toOrdinal

/-- What the running `latest_date` tracks. -/
def MaxInv (o : Option Date) (S : Finset Date) : Prop :=
  (o = none ↔ S = ∅) ∧
    ∀ x, o = some x → x ∈ S ∧ ∀ d ∈ S, d.toOrdinal ≤ x.toOrdinal

theorem minDateStep_inv {o : Option Date} {S : Finset Date}
    (h : MinInv o S) (d : Date) : MinInv (minDateStep o d) (insert d S) := by
  obtain ⟨h1, h2⟩ := h
  unfold minDateStep
  cases o with
  | none =>
    have hS : S = ∅ := h1.mp rfl
    subst hS
    refine ⟨by simp, ?_⟩
    intro x hx
    injection hx with hx
    subst hx
    refine ⟨Finset.mem_insert_self _ _, ?_⟩
    intro d' hd'
    rcases Finset.mem_insert.mp hd' with rfl | hd'
    · exact Nat.le_refl _
    · exact absurd hd' (Finset.not_mem_empty _)
  | some e =>
    have he := h2 e rfl
    show MinInv (if d.toOrdinal < e.toOrdinal then some d else some e)
      (insert d S)
    split_ifs with hlt
    · refine ⟨by simp, ?_⟩
      intro x hx
      injection hx with hx
      subst hx
      refine ⟨Finset.mem_insert_self _ _, ?_⟩
      intro d' hd'
      rcases Finset.mem_insert.mp hd' with rfl | hd'
      · exact Nat.le_refl _
      · exact le_trans (Nat.le_of_lt hlt) (he.2 d' hd')
    · refine ⟨by simp, ?_⟩
      intro x hx
      injection hx with hx
      subst hx
      refine ⟨Finset.mem_insert_of_mem he.1, ?_⟩
      intro d' hd'
      rcases Finset.mem_insert.mp hd' with rfl | hd'
      · omega
      · exact he.2 d' hd'

theorem maxDateStep_inv {o : Option Date} {S : Finset Date}
    (h : MaxInv o S) (d : Date) : MaxInv (maxDateStep o d) (insert d S) := by
  obtain ⟨h1, h2⟩ := h
  unfold maxDateStep
  cases o with
  | none =>
    have hS : S = ∅ := h1.mp rfl
    subst hS
    refine ⟨by simp, ?_⟩
    intro x hx
    injection hx with hx
    subst hx
    refine ⟨Finset.mem_insert_self _ _, ?_⟩
    intro d' hd'
    rcases Finset.mem_insert.mp hd' with rfl | hd'
    · exact Nat.le_refl _
    · exact absurd hd' (Finset.not_mem_empty _)
  | some e =>
    have he := h2 e rfl
    show MaxInv (if e.toOrdinal < d.toOrdinal then some d else some e)
      (insert d S)
    split_ifs with hlt
    · refine ⟨by simp, ?_⟩
      intro x hx
      injection hx with hx
      subst hx
      refine ⟨Finset.mem_insert_self _ _, ?_⟩
      intro d' hd'
      rcases Finset.mem_insert.mp hd' with rfl | hd'
      · exact Nat.le_refl _
      · exact le_trans (he.2 d' hd') (Nat.le_of_lt hlt)
    · refine ⟨by simp, ?_⟩
      intro x hx
      injection hx with hx
      subst hx
      refine ⟨Finset.mem_insert_of_mem he.1, ?_⟩
      intro d' hd'
      rcases Finset.mem_insert.mp hd' with rfl | hd'
      · omega
      · exact he.2 d' hd'

theorem foldl_minDateStep_inv (l : List Date) :
    ∀ {o : Option Date} {S : Finset Date}, MinInv o S →
      MinInv (l.foldl minDateStep o) (S ∪ l.toFinset) := by
  induction l with
  | nil =>
    intro o S h
    simpa using h
  | cons d ds ih =>
    intro o S h
    rw [List.foldl_cons]
    have h2 := ih (minDateStep_inv h d)
    have heq : insert d S ∪ ds.toFinset = S ∪ (d :: ds).toFinset := by
      rw [List.toFinset_cons, Finset.insert_union, Finset.union_insert]
    rw [← heq]
    exact h2

theorem foldl_maxDateStep_inv (l : List Date) :
    ∀ {o : Option Date} {S : Finset Date}, MaxInv o S →
      MaxInv (l.foldl maxDateStep o) (S ∪ l.toFinset) := by
  induction l with
  | nil =>
    intro o S h
    simpa using h
  | cons d ds ih =>
    intro o S h
    rw [List.foldl_cons]
    have h2 := ih (maxDateStep_inv h d)
    have heq : insert d S ∪ ds.toFinset = S ∪ (d :: ds).toFinset := by
      rw [List.toFinset_cons, Finset.insert_union, Finset.union_insert]
    rw [← heq]
    exact h2

theorem sortedDates_toFinset (s : Finset Date) :
    (sortedDates s).toFinset = s := by
  apply Finset.ext
  intro x
  rw [List.mem_toFinset, mem_sortedDates]

/-- The union of all collected meeting dates across the activity loop:
the claim's "collected dates". -/
def collectedDates (acts : List ActivityItem)
    (md : Int → Option MeetingAndRegistrationDates) : Finset Date :=
  acts.foldl (fun t a => t ∪ activity_meeting_dates a (md a.id)) ∅

theorem collect_min (md : Int → Option MeetingAndRegistrationDates)
    (acts : List ActivityItem) :
    ∀ (k : Nat) (s : CollectState) (S : Finset Date), MinInv s.earliest S →
      MinInv (((List.enumFrom k acts).foldl (collectActivity md) s).earliest)
        (acts.foldl (fun t a => t ∪ activity_meeting_dates a (md a.id)) S) := by
  induction acts with
  | nil =>
    intro k s S h
    exact h
  | cons a rest ih =>
    intro k s S h
    rw [List.enumFrom_cons, List.foldl_cons, List.foldl_cons]
    apply ih (k + 1)
    have he : (collectActivity md s (k, a)).earliest =
        (sortedDates (activity_meeting_dates a (md a.id))).foldl minDateStep
          s.earliest :=
      foldl_stepDate_earliest _ _ s
    rw [he]
    have h3 := foldl_minDateStep_inv
      (sortedDates (activity_meeting_dates a (md a.id))) h
    rwa [sortedDates_toFinset] at h3

theorem collect_max (md : Int → Option MeetingAndRegistrationDates)
    (acts : List ActivityItem) :
    ∀ (k : Nat) (s : CollectState) (S : Finset Date), MaxInv s.latest S →
      MaxInv (((List.enumFrom k acts).foldl (collectActivity md) s).latest)
        (acts.foldl (fun t a => t ∪ activity_meeting_dates a (md a.id)) S) := by
  induction acts with
  | nil =>
    intro k s S h
    exact h
  | cons a rest ih =>
    intro k s S h
    rw [List.enumFrom_cons, List.foldl_cons, List.foldl_cons]
    apply ih (k + 1)
    have he : (collectActivity md s (k, a)).latest =
        (sortedDates (activity_meeting_dates a (md a.id))).foldl maxDateStep
          s.latest :=
      foldl_stepDate_latest _ _ s
    rw [he]
    have h3 := foldl_maxDateStep_inv
      (sortedDates (activity_meeting_dates a (md a.id))) h
    rwa [sortedDates_toFinset] at h3

theorem collectAll_earliest_inv (acts : List ActivityItem)
    (md : Int → Option MeetingAndRegistrationDates) :
    MinInv (collectAll acts md).earliest (collectedDates acts md) :=
  collect_min md acts 0 emptyCollectState ∅
    ⟨by simp [emptyCollectState], by intro x hx; cases hx⟩

theorem collectAll_latest_inv (acts : List ActivityItem)
    (md : Int → Option MeetingAndRegistrationDates) :
    MaxInv (collectAll acts md).latest (collectedDates acts md) :=
  collect_max md acts 0 emptyCollectState ∅
    ⟨by simp [emptyCollectState], by intro x hx; cases hx⟩

theorem collect_fold_events (md : Int → Option MeetingAndRegistrationDates)
    (ias : List (Nat × ActivityItem)) :
    ∀ (s : CollectState) (x : Date),
      ((ias.foldl (collectActivity md) s).events) x =
        s.events x ++ ((ias.filter fun ia =>
            decide (x ∈ activity_meeting_dates ia.2 (md ia.2.id))).map
          fun ia => mkCalendarEvent ia.1 ia.2 (md ia.2.id)) := by
  induction ias with
  | nil =>
    intro s x
    simp
  | cons ia rest ih =>
    intro s x
    rw [List.foldl_cons, ih]
    have hev : (collectActivity md s ia).events x =
        if x ∈ sortedDates (activity_meeting_dates ia.2 (md ia.2.id))
        then s.events x ++ [mkCalendarEvent ia.1 ia.2 (md ia.2.id)]
        else s.events x :=
      foldl_stepDate_events _ _ s x (nodup_sortedDates _)
    rw [hev]
    by_cases hx : x ∈ activity_meeting_dates ia.2 (md ia.2.id)
    · rw [if_pos (mem_sortedDates.mpr hx),
        List.filter_cons_of_pos (by simpa using hx), List.map_cons,
        List.append_assoc, List.singleton_append]
    · rw [if_neg (fun hc => hx (mem_sortedDates.mp hc)),
        List.filter_cons_of_neg (by simpa using hx)]

/-- The event bucket of any date, in closed form: the events of exactly
those activities (in input order, with their enumeration index) whose
meeting-date set contains the date. -/
theorem collectAll_events (acts : List ActivityItem)
    (md : Int → Option MeetingAndRegistrationDates) (x : Date) :
    (collectAll acts md).events x =
      ((acts.enum.filter fun ia =>
          decide (x ∈ activity_meeting_dates ia.2 (md ia.2.id))).map
        fun ia => mkCalendarEvent ia.1 ia.2 (md ia.2.id)) := by
  have h := collect_fold_events md acts.enum emptyCollectState x
  simpa [emptyCollectState] using h

/-!  Claim C9: at most one event per activity per day. -/

/-- C9: in every calendar returned by `build_calendar_data`, each day
cell's event list is the image of a duplicate-free sublist of the
enumerated activity list — so every activity contributes at most one
`CalendarEvent` to any given day, even when several of its patterns
produce the same date. -/
theorem day_events_per_activity (today : Date) (acts : List ActivityItem)
    (md : Int → Option MeetingAndRegistrationDates)
    (mo : CalendarMonth) (w : List CalendarDay) (c : CalendarDay)
    (hmo : mo ∈ build_calendar_data today acts md)
    (hw : w ∈ mo.weeks) (hc : c ∈ w) :
    ∃ sub : List (Nat × ActivityItem), sub.Sublist acts.enum ∧ sub.Nodup ∧
      c.events = sub.map fun ia => mkCalendarEvent ia.1 ia.2 (md ia.2.id) := by
  have hnd : acts.enum.Nodup := by
    have h1 : (acts.enum.map Prod.fst) = List.range acts.length :=
      List.enum_map_fst acts
    have h2 : (acts.enum.map Prod.fst).Nodup := by
      rw [h1]
      exact List.nodup_range _
    exact h2.of_map
  simp only [build_calendar_data] at hmo
  split_ifs at hmo with h
  · simp at hmo
  · rcases he : (collectAll acts md).earliest with _ | lo
    · rw [he] at hmo
      have hmo2 : mo ∈ ([] : List CalendarMonth) := hmo
      simp at hmo2
    · rcases hl : (collectAll acts md).latest with _ | hi
      · rw [he, hl] at hmo
        have hmo2 : mo ∈ ([] : List CalendarMonth) := hmo
        simp at hmo2
      · rw [he, hl] at hmo
        have hmo2 : mo ∈ (monthSeq
            (monthCount (lo.year, lo.month) (hi.year, hi.month))
            (lo.year, lo.month)).map
            (mkCalendarMonth today (collectAll acts md).events) := hmo
        obtain ⟨ym, _, rfl⟩ := List.mem_map.mp hmo2
        unfold mkCalendarMonth at hw
        obtain ⟨w0, hw0, rfl⟩ := List.mem_map.mp hw
        obtain ⟨n, hn, rfl⟩ := List.mem_map.mp hc
        unfold mkCalendarDay
        split_ifs with hz
        · exact ⟨[], List.nil_sublist _, List.nodup_nil, rfl⟩
        · refine ⟨acts.enum.filter fun ia =>
            decide ((⟨ym.1, ym.2, n⟩ : Date) ∈
              activity_meeting_dates ia.2 (md ia.2.id)),
            List.filter_sublist _, hnd.sublist (List.filter_sublist _), ?_⟩
          show (collectAll acts md).events ⟨ym.1, ym.2, n⟩ = _
          exact collectAll_events acts md _

def c9wA : ActivityItem :=
  { id := 1, name := "Swim", date_range_start := "2026-03-16" }

def c9wMd : Int → Option MeetingAndRegistrationDates := fun _ => none

def c9wMo : CalendarMonth :=
  (build_calendar_data ⟨2026, 3, 1⟩ [c9wA] c9wMd).headD ⟨0, 0, "", []⟩

def c9wW : List CalendarDay := c9wMo.weeks.headD []

def c9wC : CalendarDay := c9wW.headD ⟨0, false, "", false, []⟩

set_option maxRecDepth 1000000 in
/-- Witness for C9 at a concrete one-activity calendar cell. -/
theorem day_events_per_activity_witness :
    ∃ sub : List (Nat × ActivityItem), sub.Sublist ([c9wA].enum) ∧
      sub.Nodup ∧
      c9wC.events = sub.map fun ia =>
        mkCalendarEvent ia.1 ia.2 (c9wMd ia.2.id) :=
  day_events_per_activity ⟨2026, 3, 1⟩ [c9wA] c9wMd c9wMo c9wW c9wC
    (by decide) (by decide) (by decide)

/-!  Claim C2: month span of the built calendar. -/

theorem mem_foldl_union_finset {β : Type} {l : List β} {f : β → Finset Date}
    {init : Finset Date} {x : Date} :
    x ∈ l.foldl (fun t b => t ∪ f b) init ↔
      x ∈ init ∨ ∃ b ∈ l, x ∈ f b := by
  induction l generalizing init with
  | nil => simp
  | cons b rest ih =>
    rw [List.foldl_cons, ih]
    constructor
    · rintro (hx | ⟨c, hc, hx⟩)
      · rcases Finset.mem_union.mp hx with hx | hx
        · exact Or.inl hx
        · exact Or.inr ⟨b, List.mem_cons_self _ _, hx⟩
      · exact Or.inr ⟨c, List.mem_cons_of_mem _ hc, hx⟩
    · rintro (hx | ⟨c, hc, hx⟩)
      · exact Or.inl (Finset.mem_union_left _ hx)
      · rcases List.mem_cons.mp hc with rfl | hc
        · exact Or.inl (Finset.mem_union_right _ hx)
        · exact Or.inr ⟨c, hc, hx⟩

theorem mem_expand_valid {x : Date} {p : ActivityPattern}
    (h : x ∈ expand_pattern_dates p) : x.Valid := by
  rcases hbb : parse_iso p.beginning_date with _ | s
  · rw [expand_empty_of_parse_fail (Or.inl hbb)] at h
    simp at h
  · rcases hee : parse_iso p.ending_date with _ | t
    · rw [expand_empty_of_parse_fail (Or.inr hee)] at h
      simp at h
    · exact ((mem_expand_pattern_dates hbb hee x).mp h).1

theorem mem_singletonStart_valid {x : Date} {a : ActivityItem}
    (h : x ∈ singletonStart a) : x.Valid := by
  unfold singletonStart at h
  rcases hp : parse_iso a.date_range_start with _ | d
  · rw [hp] at h
    simp at h
  · rw [hp] at h
    rw [Finset.mem_singleton] at h
    subst h
    exact parse_iso_valid hp

theorem amd_valid {x : Date} {a : ActivityItem}
    {mi : Option MeetingAndRegistrationDates}
    (h : x ∈ activity_meeting_dates a mi) : x.Valid := by
  unfold activity_meeting_dates at h
  cases mi with
  | none => exact mem_singletonStart_valid h
  | some m =>
    have h2 : x ∈ (if m.no_meeting_dates = true then singletonStart a
        else if patternsUnion m = ∅ then singletonStart a
        else patternsUnion m) := h
    split_ifs at h2 with h1 h3
    · exact mem_singletonStart_valid h2
    · exact mem_singletonStart_valid h2
    · unfold patternsUnion at h2
      rw [mem_foldl_union_finset] at h2
      rcases h2 with h2 | ⟨pat, _, h2⟩
      · exact absurd h2 (Finset.not_mem_empty _)
      · exact mem_expand_valid h2

theorem collectedDates_valid {acts : List ActivityItem}
    {md : Int → Option MeetingAndRegistrationDates} {x : Date}
    (h : x ∈ collectedDates acts md) : x.Valid := by
  unfold collectedDates at h
  rw [mem_foldl_union_finset] at h
  rcases h with h | ⟨a, _, h⟩
  · exact absurd h (Finset.not_mem_empty _)
  · exact amd_valid h

/-- Ordinal order of valid dates is reflected in the year/month index. -/
theorem month_index_le {a b : Date} (ha : a.Valid) (hb : b.Valid)
    (h : a.toOrdinal ≤ b.toOrdinal) :
    12 * a.year + a.month ≤ 12 * b.year + b.month := by
  by_contra hc
  push_neg at hc
  have ham := ha.2.1
  have ham2 := ha.2.2.1
  have hbm := hb.2.1
  have hbm2 := hb.2.2.1
  rcases Nat.lt_or_ge b.year a.year with hy | hy
  · have hb1 := Date.toOrdinal_year_bounds hb
    have ha1 := Date.toOrdinal_year_bounds ha
    have hstep := daysBeforeYear_add_le hb.1 hy
    omega
  · have hyeq : a.year = b.year := by omega
    have hm : b.month < a.month := by omega
    have hstep : daysBeforeMonth b.year b.month + b.day ≤
        daysBeforeMonth b.year (b.month + 1) := by
      rw [daysBeforeMonth_succ _ _ hb.2.1]
      have := hb.2.2.2.2
      omega
    have hmono : daysBeforeMonth b.year (b.month + 1) ≤
        daysBeforeMonth b.year a.month := daysBeforeMonth_mono _ (by omega)
    have had := ha.2.2.2.1
    unfold Date.toOrdinal at h
    rw [hyeq] at h
    omega

theorem nextMonth_index (ym : Nat × Nat) (h1 : 1 ≤ ym.2) (h2 : ym.2 ≤ 12) :
    12 * (nextMonth ym).1 + (nextMonth ym).2 = 12 * ym.1 + ym.2 + 1 ∧
      1 ≤ (nextMonth ym).2 ∧ (nextMonth ym).2 ≤ 12 := by
  unfold nextMonth
  split_ifs with h
  · refine ⟨?_, ?_, ?_⟩
    · show 12 * (ym.1 + 1) + 1 = 12 * ym.1 + ym.2 + 1
      omega
    · show 1 ≤ 1
      omega
    · show 1 ≤ 12
      omega
  · refine ⟨?_, ?_, ?_⟩
    · show 12 * ym.1 + (ym.2 + 1) = 12 * ym.1 + ym.2 + 1
      omega
    · show 1 ≤ ym.2 + 1
      omega
    · show ym.2 + 1 ≤ 12
      omega

theorem monthSeq_chain (n : Nat) :
    ∀ ym : Nat × Nat,
      List.Chain' (fun a b => b = nextMonth a) (monthSeq n ym) := by
  induction n with
  | zero =>
    intro ym
    simp [monthSeq]
  | succ n ih =>
    intro ym
    rw [show monthSeq (n + 1) ym = ym :: monthSeq n (nextMonth ym) from rfl]
    refine List.chain'_cons'.mpr ⟨?_, ih _⟩
    intro b hb
    cases n with
    | zero => simp [monthSeq] at hb
    | succ m =>
      rw [show monthSeq (m + 1) (nextMonth ym) =
        nextMonth ym :: monthSeq m (nextMonth (nextMonth ym)) from rfl] at hb
      rw [List.head?_cons, Option.mem_some_iff] at hb
      exact hb.symm

theorem monthSeq_getLast :
    ∀ (n : Nat) (ym stop : Nat × Nat), 1 ≤ ym.2 → ym.2 ≤ 12 →
      1 ≤ stop.2 → stop.2 ≤ 12 →
      12 * stop.1 + stop.2 + 1 = 12 * ym.1 + ym.2 + (n + 1) →
      (monthSeq (n + 1) ym).getLast? = some stop := by
  intro n
  induction n with
  | zero =>
    intro ym stop h1 h2 h3 h4 hidx
    have hstop : stop = ym := by
      have e1 : stop.1 = ym.1 := by omega
      have e2 : stop.2 = ym.2 := by omega
      exact Prod.ext e1 e2
    subst hstop
    rfl
  | succ m ih =>
    intro ym stop h1 h2 h3 h4 hidx
    have hnext := nextMonth_index ym h1 h2
    rw [show monthSeq (m + 1 + 1) ym =
      ym :: (nextMonth ym :: monthSeq m (nextMonth (nextMonth ym))) from rfl]
    rw [List.getLast?_cons_cons]
    rw [show (nextMonth ym :: monthSeq m (nextMonth (nextMonth ym))) =
      monthSeq (m + 1) (nextMonth ym) from rfl]
    refine ih (nextMonth ym) stop hnext.2.1 hnext.2.2 h3 h4 ?_
    have := hnext.1
    omega

/-- C2: `build_calendar_data` returns `[]` on an empty activity list and
when no meeting date is collected from any activity; otherwise the month
list advances by exactly one calendar month per entry and its first and
last months are the months of the minimum and maximum collected dates,
with no event-free months outside that range. -/
theorem build_month_span (today : Date) (acts : List ActivityItem)
    (md : Int → Option MeetingAndRegistrationDates) :
    (acts = [] → build_calendar_data today acts md = []) ∧
    (collectedDates acts md = ∅ → build_calendar_data today acts md = []) ∧
    (∀ lo hi : Date,
      lo ∈ collectedDates acts md → hi ∈ collectedDates acts md →
      (∀ d ∈ collectedDates acts md, lo.toOrdinal ≤ d.toOrdinal) →
      (∀ d ∈ collectedDates acts md, d.toOrdinal ≤ hi.toOrdinal) →
      ∃ first last : CalendarMonth,
        (build_calendar_data today acts md).head? = some first ∧
        (build_calendar_data today acts md).getLast? = some last ∧
        first.year = lo.year ∧ first.month = lo.month ∧
        last.year = hi.year ∧ last.month = hi.month ∧
        List.Chain'
          (fun a b => b.year = (nextMonth (a.year, a.month)).1 ∧
            b.month = (nextMonth (a.year, a.month)).2)
          (build_calendar_data today acts md)) := by
  refine ⟨?_, ?_, ?_⟩
  · intro h
    simp [build_calendar_data, h]
  · intro hcd
    by_cases h : acts = []
    · simp [build_calendar_data, h]
    · have hminv := collectAll_earliest_inv acts md
      have hnone : (collectAll acts md).earliest = none := hminv.1.mpr hcd
      simp only [build_calendar_data, if_neg h]
      rw [hnone]
  · intro lo hi hlo hhi hmin hmax
    have hne : acts ≠ [] := by
      intro hcon
      subst hcon
      exact absurd hlo (by simp [collectedDates])
    have hvlo : lo.Valid := collectedDates_valid hlo
    have hvhi : hi.Valid := collectedDates_valid hhi
    have hminv := collectAll_earliest_inv acts md
    have hmaxv := collectAll_latest_inv acts md
    rcases he : (collectAll acts md).earliest with _ | e
    · have : collectedDates acts md = ∅ := hminv.1.mp he
      rw [this] at hlo
      exact absurd hlo (Finset.not_mem_empty _)
    rcases hl : (collectAll acts md).latest with _ | l
    · have : collectedDates acts md = ∅ := hmaxv.1.mp hl
      rw [this] at hlo
      exact absurd hlo (Finset.not_mem_empty _)
    have hee := hminv.2 e he
    have hll := hmaxv.2 l hl
    have helo : e = lo :=
      Date.toOrdinal_inj (collectedDates_valid hee.1) hvlo
        (Nat.le_antisymm (hee.2 lo hlo) (hmin e hee.1))
    have hlhi : l = hi :=
      Date.toOrdinal_inj (collectedDates_valid hll.1) hvhi
        (Nat.le_antisymm (hmax l hll.1) (hll.2 hi hhi))
    rw [helo] at he
    rw [hlhi] at hl
    have hidx : 12 * lo.year + lo.month ≤ 12 * hi.year + hi.month :=
      month_index_le hvlo hvhi (hmin hi hhi)
    have hb : build_calendar_data today acts md =
        (monthSeq (monthCount (lo.year, lo.month) (hi.year, hi.month))
          (lo.year, lo.month)).map
          (mkCalendarMonth today (collectAll acts md).events) := by
      simp only [build_calendar_data, if_neg hne]
      rw [he, hl]
    have hcount1 : 1 ≤ monthCount (lo.year, lo.month) (hi.year, hi.month) := by
      show 1 ≤ 12 * hi.year + hi.month + 1 - (12 * lo.year + lo.month)
      omega
    obtain ⟨n, hn⟩ : ∃ n,
        monthCount (lo.year, lo.month) (hi.year, hi.month) = n + 1 :=
      ⟨monthCount (lo.year, lo.month) (hi.year, hi.month) - 1, by omega⟩
    refine ⟨mkCalendarMonth today (collectAll acts md).events
        (lo.year, lo.month),
      mkCalendarMonth today (collectAll acts md).events (hi.year, hi.month),
      ?_, ?_, rfl, rfl, rfl, rfl, ?_⟩
    · rw [hb, hn, List.head?_map]
      rfl
    · rw [hb, hn, List.getLast?_map]
      have hcnt : 12 * hi.year + hi.month + 1 =
          12 * lo.year + lo.month + (n + 1) := by
        have hmc : monthCount (lo.year, lo.month) (hi.year, hi.month) =
            12 * hi.year + hi.month + 1 - (12 * lo.year + lo.month) := rfl
        omega
      rw [monthSeq_getLast n (lo.year, lo.month) (hi.year, hi.month)
        hvlo.2.1 hvlo.2.2.1 hvhi.2.1 hvhi.2.2.1 hcnt]
      rfl
    · rw [hb]
      rw [List.chain'_map]
      refine (monthSeq_chain _ (lo.year, lo.month)).imp ?_
      intro a b hab
      subst hab
      exact ⟨rfl, rfl⟩

def c2wA : ActivityItem :=
  { id := 1, name := "Chess", date_range_start := "2026-03-16" }

def c2wMd : Int → Option MeetingAndRegistrationDates := fun _ => none

set_option maxRecDepth 1000000 in
/-- Witness for C2 at a concrete single-date activity list. -/
theorem build_month_span_witness :
    ∃ first last : CalendarMonth,
      (build_calendar_data ⟨2026, 4, 1⟩ [c2wA] c2wMd).head? = some first ∧
      (build_calendar_data ⟨2026, 4, 1⟩ [c2wA] c2wMd).getLast? = some last ∧
      first.year = (⟨2026, 3, 16⟩ : Date).year ∧
      first.month = (⟨2026, 3, 16⟩ : Date).month ∧
      last.year = (⟨2026, 3, 16⟩ : Date).year ∧
      last.month = (⟨2026, 3, 16⟩ : Date).month ∧
      List.Chain'
        (fun a b => b.year = (nextMonth (a.year, a.month)).1 ∧
          b.month = (nextMonth (a.year, a.month)).2)
        (build_calendar_data ⟨2026, 4, 1⟩ [c2wA] c2wMd) :=
  (build_month_span ⟨2026, 4, 1⟩ [c2wA] c2wMd).2.2 ⟨2026, 3, 16⟩
    ⟨2026, 3, 16⟩ (by decide) (by decide) (by decide) (by decide)

end SamoActivities
